import Mathlib

/-!
Shallow embedding of the calculator service (orchestrator, storage, agent)
for checking its natural-language specification.

Part A models the in-memory orchestrator: the AST node type, the task
decomposer `Tasks` (internal/orchestrator/orchestrator.go), and the
spec-described result-integration loop.

Part B models the storage layer (package storage): the expression and task
tables and the operations `CreateExpression`, `UpdateExpression`,
`GetPendingTask`, `CompleteTask`, plus the HTTP handlers that call them.

Part C models the agent worker loop and `Calculations`.

Go float64 values are modelled as rationals; none of the verified
properties depends on floating-point rounding.
-/

namespace CalcService

/-- Go `orchestrator.ASTNode`: either a leaf with a numeric value, or an
internal operator node with two children and the `TaskScheduled` flag. -/
inductive ASTNode where
  | leaf (value : ℚ)
  | node (operator : String) (left right : ASTNode) (scheduled : Bool)
deriving DecidableEq

/-- Go field `IsLeaf`. -/
def ASTNode.isLeaf : ASTNode → Bool
  | .leaf _ => true
  | .node _ _ _ _ => false

/-- Go field `Value` (meaningful only on leaves; 0 otherwise, matching the
zero value of an unset struct field). -/
def ASTNode.value : ASTNode → ℚ
  | .leaf v => v
  | .node _ _ _ _ => 0

/-- Go `orchestrator.Config` (port plus the four operator costs). -/
structure Config where
  addr : String
  timeAddition : Int
  timeSubtraction : Int
  timeMultiplications : Int
  timeDivisions : Int
deriving DecidableEq

/-- The `switch node.Operator` in `Tasks` choosing the simulated cost
(default branch yields 100). -/
def opTime (cfg : Config) (op : String) : Int :=
  if op = "+" then cfg.timeAddition
  else if op = "-" then cfg.timeSubtraction
  else if op = "*" then cfg.timeMultiplications
  else if op = "/" then cfg.timeDivisions
  else 100

/-- Go `orchestrator.Task`.  The `Node *ASTNode` pointer is represented by
the node's path from the root of the expression's AST
(`false` = left child, `true` = right child). -/
structure Task where
  id : String
  exprID : String
  arg1 : ℚ
  arg2 : ℚ
  operation : String
  operationTime : Int
  node : List Bool
deriving DecidableEq

/-- The task-related mutable state of `orchestrator.Orchestrator`:
`taskCounter`, `taskStore` and `taskQueue`. -/
structure OrchState where
  taskCounter : Nat
  taskStore : List (String × Task)
  taskQueue : List Task
deriving DecidableEq

/-- Go `(*Orchestrator).Tasks`: post-order depth-first traversal that, for
every internal node whose two children are both leaves and whose
`TaskScheduled` flag is unset, increments the counter, creates a task from
the children's values, sets the flag and appends the task to the store and
the queue.  The `path` argument tracks the position of the current node. -/
def tasksTraverse (cfg : Config) (exprID : String) :
    OrchState → List Bool → ASTNode → OrchState × ASTNode
  | st, _, .leaf v => (st, .leaf v)
  | st, path, .node op l r sched =>
    let pl := tasksTraverse cfg exprID st (path ++ [false]) l
    let pr := tasksTraverse cfg exprID pl.1 (path ++ [true]) r
    if pl.2.isLeaf && pr.2.isLeaf && !sched then
      let cnt := pr.1.taskCounter + 1
      let tid := toString cnt
      let t : Task :=
        ⟨tid, exprID, pl.2.value, pr.2.value, op, opTime cfg op, path⟩
      (⟨cnt, (tid, t) :: pr.1.taskStore, pr.1.taskQueue ++ [t]⟩,
       .node op pl.2 pr.2 true)
    else (pr.1, .node op pl.2 pr.2 sched)

/-- Number of internal (operator) nodes of an AST. -/
def internalCount : ASTNode → Nat
  | .leaf _ => 0
  | .node _ l r _ => internalCount l + internalCount r + 1

/-- A node is *ready* when both children are leaves.  `newlyCount` counts the
ready nodes whose `scheduled` flag is still unset — exactly the nodes for
which one pass of `Tasks` emits a task. -/
def newlyCount : ASTNode → Nat
  | .leaf _ => 0
  | .node _ l r s =>
    newlyCount l + newlyCount r + (if l.isLeaf && r.isLeaf && !s then 1 else 0)

/-- Paths (relative to `pre`) of the ready-and-unscheduled nodes, in
post-order depth-first left-to-right order — the emission order of `Tasks`. -/
def newlyPaths (pre : List Bool) : ASTNode → List (List Bool)
  | .leaf _ => []
  | .node _ l r s =>
    newlyPaths (pre ++ [false]) l ++ newlyPaths (pre ++ [true]) r ++
      (if l.isLeaf && r.isLeaf && !s then [pre] else [])

/-- Paths of the nodes whose `scheduled` flag is set, in post-order. -/
def scheduledPaths (pre : List Bool) : ASTNode → List (List Bool)
  | .leaf _ => []
  | .node _ l r s =>
    scheduledPaths (pre ++ [false]) l ++ scheduledPaths (pre ++ [true]) r ++
      (if s then [pre] else [])

/-- The pure effect of one `Tasks` pass on the AST: the `scheduled` flag of
every ready node becomes set, everything else is unchanged. -/
def markReady : ASTNode → ASTNode
  | .leaf v => .leaf v
  | .node op l r s =>
    .node op (markReady l) (markReady r) (s || (l.isLeaf && r.isLeaf))

/-- The tasks emitted by one `Tasks` pass started at counter value `cnt`,
as a pure recursive specification. -/
def emittedList (cfg : Config) (exprID : String) (cnt : Nat) (pre : List Bool) :
    ASTNode → List Task
  | .leaf _ => []
  | .node op l r s =>
    let el := emittedList cfg exprID cnt (pre ++ [false]) l
    let er := emittedList cfg exprID (cnt + newlyCount l) (pre ++ [true]) r
    el ++ er ++
      (if l.isLeaf && r.isLeaf && !s then
        [⟨toString (cnt + newlyCount l + newlyCount r + 1), exprID,
          l.value, r.value, op, opTime cfg op, pre⟩]
      else [])

/-- Every ready node is scheduled (holds after a `Tasks` pass). -/
def allReadyScheduled : ASTNode → Bool
  | .leaf _ => true
  | .node _ l r s =>
    allReadyScheduled l && allReadyScheduled r && (!(l.isLeaf && r.isLeaf) || s)

/-- Every scheduled node is ready (its two children are leaves); an
invariant of the expression lifetime. -/
def allScheduledReady : ASTNode → Bool
  | .leaf _ => true
  | .node _ l r s =>
    allScheduledReady l && allScheduledReady r && (!s || (l.isLeaf && r.isLeaf))

/-- No `scheduled` flag is set anywhere (the parser's output shape: every
internal node is created with `scheduled=false`). -/
def unscheduled : ASTNode → Bool
  | .leaf _ => true
  | .node _ l r s => !s && unscheduled l && unscheduled r

/-- The subtree of `a` at path `q`, if the path stays inside the tree. -/
def nodeAt : ASTNode → List Bool → Option ASTNode
  | a, [] => some a
  | .leaf _, _ :: _ => none
  | .node _ l r _, d :: q => nodeAt (if d then r else l) q

/-- Replace the subtree at path `q` by a leaf carrying `v` (the result
integration step: the originating `Internal` node becomes a `Leaf`). -/
def setLeafAt : ASTNode → List Bool → ℚ → ASTNode
  | _, [], v => .leaf v
  | .leaf w, _ :: _, _ => .leaf w
  | .node op l r s, d :: q, v =>
    if d then .node op l (setLeafAt r q v) s else .node op (setLeafAt l q v) r s

/-- Rational-valued evaluation of one atomic operation (total; used only to
pick some submitted value while counting tasks — the counting results hold
for any submitted values). -/
def applyOpTotal (op : String) (a b : ℚ) : ℚ :=
  if op = "+" then a + b
  else if op = "-" then a - b
  else if op = "*" then a * b
  else if op = "/" then a / b
  else 0

/-- Modelled from the spec: the result-integration loop (§4.3–§4.5).  The
gRPC `SubmitResult` server that performs it is not among the sources; per
the spec, each submit writes the value into the originating node (turning it
into a `Leaf`), removes the task from bookkeeping, and re-invokes the
decomposer, with tasks consumed in FIFO order.  `fuel` bounds the number of
integration steps. -/
def runLifetime (cfg : Config) (exprID : String) :
    Nat → OrchState × ASTNode → OrchState × ASTNode
  | 0, p => p
  | fuel + 1, (st, ast) =>
    match st.taskQueue with
    | [] => (st, ast)
    | t :: rest =>
      let st1 : OrchState :=
        ⟨st.taskCounter, st.taskStore.filter (fun p => p.1 != t.id), rest⟩
      let ast1 := setLeafAt ast t.node (applyOpTotal t.operation t.arg1 t.arg2)
      runLifetime cfg exprID fuel (tasksTraverse cfg exprID st1 [] ast1)

/-- A row of the `expressions` table (`id`, `user_id`, `expression`,
`status`, `result`, `created_at`). -/
structure ExprRow where
  id : Nat
  user_id : Nat
  expression : String
  status : String
  result : Option ℚ
  created_at : Nat
deriving DecidableEq

/-- A row of the `tasks` table (`id`, `expression_id`, `arg1`, `arg2`,
`operation`, `operation_time`, `completed`, `result`, `started_at`). -/
structure TaskRow where
  id : Nat
  expression_id : Nat
  arg1 : ℚ
  arg2 : ℚ
  operation : String
  operation_time : Int
  completed : Bool
  result : Option ℚ
  started_at : Option Nat
deriving DecidableEq

/-- The SQLite database owned by `storage.Storage`. -/
structure DB where
  expressions : List ExprRow
  tasks : List TaskRow
deriving DecidableEq

/-- `database/sql` failure relevant here: a query scanning zero rows. -/
inductive SqlError where
  | noRows
deriving DecidableEq

deriving instance DecidableEq for Except

/-- SQLite `INTEGER PRIMARY KEY` assignment: one more than the largest id
in the table. -/
def nextExprId (db : DB) : Nat :=
  (db.expressions.foldl (fun m e => max m e.id) 0) + 1

/-- Go `(*Storage).CreateExpression`: inserts a `pending` row for the user
and returns the fresh id. -/
def CreateExpression (db : DB) (userID : Nat) (text : String) (now : Nat) :
    DB × Nat :=
  let newId := nextExprId db
  (⟨db.expressions ++ [⟨newId, userID, text, "pending", none, now⟩],
    db.tasks⟩, newId)

/-- The fields of the expression record that `UpdateExpression` reads
(`e.Status`, `e.Result`, `e.ID`, `e.UserID`). -/
structure ExprUpdate where
  id : Nat
  user_id : Nat
  status : String
  result : Option ℚ

/-- Go `(*Storage).UpdateExpression`:
`UPDATE expressions SET status = ?, result = ? WHERE id = ? AND user_id = ?`. -/
def UpdateExpression (db : DB) (e : ExprUpdate) : DB :=
  ⟨db.expressions.map (fun row =>
      if row.id = e.id ∧ row.user_id = e.user_id then
        { row with status := e.status, result := e.result }
      else row),
   db.tasks⟩

/-- Go `(*Storage).CompleteTask`:
`UPDATE tasks SET completed = TRUE, result = ? WHERE id = ? RETURNING expression_id`
(no-rows error if the id is absent; note no `completed = FALSE` filter),
then counts the expression's uncompleted tasks and, when zero, runs
`UPDATE expressions SET status = 'completed' WHERE id = ?` (no result column). -/
def CompleteTask (db : DB) (taskID : Nat) (result : ℚ) : Except SqlError DB :=
  match db.tasks.find? (fun t => t.id == taskID) with
  | none => .error .noRows
  | some t =>
    let tasks1 := db.tasks.map (fun u =>
      if u.id = taskID then { u with completed := true, result := some result }
      else u)
    let pending := (tasks1.filter
      (fun u => u.expression_id == t.expression_id && !u.completed)).length
    if pending = 0 then
      .ok ⟨db.expressions.map (fun e =>
              if e.id = t.expression_id then { e with status := "completed" }
              else e),
           tasks1⟩
    else .ok ⟨db.expressions, tasks1⟩

/-- Go `(*Storage).GetPendingTask`'s `SELECT` : uncompleted tasks joined
with their expression row, keyed for the
`ORDER BY e.created_at ASC, t.id ASC` clause. -/
def pendingCandidates (db : DB) : List (Nat × TaskRow) :=
  (db.tasks.filter (fun t => !t.completed)).filterMap
    (fun t => (db.expressions.find? (fun e => e.id == t.expression_id)).map
      (fun e => (e.created_at, t)))

/-- `LIMIT 1` under `ORDER BY (created_at, id)`: the candidate with the
lexicographically least key. -/
def pickMin : List (Nat × TaskRow) → Option (Nat × TaskRow)
  | [] => none
  | x :: xs =>
    some (xs.foldl
      (fun b y =>
        if y.1 < b.1 || (y.1 == b.1 && y.2.id < b.2.id) then y else b) x)

/-- Go `(*Storage).GetPendingTask`: selects the oldest uncompleted task
(no-rows error when none), then `UPDATE tasks SET started_at = NOW()` on it,
and returns the scanned row.  The `WHERE t.completed = FALSE` filter is the
only eligibility condition — `started_at` is never consulted. -/
def GetPendingTask (db : DB) (now : Nat) : Except SqlError (TaskRow × DB) :=
  match pickMin (pendingCandidates db) with
  | none => .error .noRows
  | some (_, t) =>
    .ok (t, ⟨db.expressions,
             db.tasks.map (fun u =>
               if u.id = t.id then { u with started_at := some now } else u)⟩)

/-- Go `(*Orchestrator).postTaskHandler` (the HTTP `SubmitResult`): any
`CompleteTask` error becomes a 500 response with the state unchanged;
success is a 200. -/
def postTaskHandler (db : DB) (taskID : Nat) (result : ℚ) : Nat × DB :=
  match CompleteTask db taskID result with
  | .error _ => (500, db)
  | .ok db1 => (200, db1)

/-- The parse-failure branch of `(*Orchestrator).calculateHandler`: the
expression is first persisted via `CreateExpression`, then — `ParseAST`
having failed — `UpdateExpression` is called on a record carrying only the
new id and `Status: "error"` (all other fields, including `UserID`, are Go
zero values), and the handler returns without calling `Tasks`.  Returns the
resulting database and the new expression id. -/
def calculateHandlerParseFail (db : DB) (userID : Nat) (text : String)
    (now : Nat) : DB × Nat :=
  let r := CreateExpression db userID text now
  (UpdateExpression r.1 ⟨r.2, 0, "error", none⟩, r.2)

/-- The in-memory `orchestrator.Expression` as used by
`expressionIDHandler` (the `AST` pointer is `Option`, nil-able). -/
structure ExprMem where
  id : String
  expr : String
  status : String
  result : Option ℚ
  ast : Option ASTNode
deriving DecidableEq

/-- Responses of `expressionIDHandler`. -/
inductive ExprIDResponse where
  | methodNotAllowed
  | notFound
  | ok (e : ExprMem)
deriving DecidableEq

/-- Go `(*Orchestrator).expressionIDHandler`: rejects non-GET, looks the id
up in `exprStore`, lazily promotes the expression to `completed` with the
root value when its AST is a leaf (mutating the stored record), and encodes
the record.  The authenticated user id sits in the request context; the
handler never reads it. -/
def expressionIDHandler (method : String) (exprStore : List (String × ExprMem))
    (id : String) (userID : Nat) : ExprIDResponse × List (String × ExprMem) :=
  if method ≠ "GET" then (.methodNotAllowed, exprStore)
  else
    match (exprStore.find? (fun p => p.1 == id)).map (fun p => p.2) with
    | none => (.notFound, exprStore)
    | some e =>
      match e.ast with
      | some a =>
        if a.isLeaf then
          let e1 := { e with status := "completed", result := some a.value }
          (.ok e1,
           exprStore.map (fun p => if p.1 = id then (p.1, e1) else p))
        else (.ok e, exprStore)
      | none => (.ok e, exprStore)

/-- Errors of `agent.Calculations`. -/
inductive CalcError where
  | divisionByZero
  | invalidOperator (op : String)
deriving DecidableEq

/-- Go `agent.Calculations`: the four operators, with an explicit
division-by-zero error and an invalid-operator error. -/
def Calculations (operation : String) (a b : ℚ) : Except CalcError ℚ :=
  if operation = "+" then .ok (a + b)
  else if operation = "-" then .ok (a - b)
  else if operation = "*" then .ok (a * b)
  else if operation = "/" then
    if b = 0 then .error .divisionByZero else .ok (a / b)
  else .error (.invalidOperator operation)

/-- The task DTO a worker receives from `GetTask`. -/
structure AgentTask where
  id : String
  arg1 : ℚ
  arg2 : ℚ
  operation : String
  operationTime : Int
deriving DecidableEq

/-- One iteration of `agent.Worker` after a successful fetch: the submit
call it makes, if any.  An empty task id means "no task" (sleep and poll
again); a `Calculations` error is logged and the loop continues — no
`SubmitResult` happens and the task is not resubmitted. -/
def workerIteration (t : AgentTask) : Option (String × ℚ) :=
  if t.id = "" then none
  else
    match Calculations t.operation t.arg1 t.arg2 with
    | .error _ => none
    | .ok r => some (t.id, r)

/-- A database holding one pending expression of user 1 with a single
uncompleted task. -/
def c3_db0 : DB :=
  ⟨[⟨1, 1, "2+2", "pending", none, 5⟩],
   [⟨1, 1, 2, 2, "+", 100, false, none, none⟩]⟩

/-- `c3_db0` after the first fetch: only `started_at` was written. -/
def c3_db1 : DB :=
  ⟨[⟨1, 1, "2+2", "pending", none, 5⟩],
   [⟨1, 1, 2, 2, "+", 100, false, none, some 0⟩]⟩

/-- The `2+2*2` expression after its `*` task was integrated: the final
`+` task (id 2) is the only uncompleted one. -/
def c2_db : DB :=
  ⟨[⟨1, 1, "2+2*2", "pending", none, 0⟩],
   [⟨1, 1, 2, 2, "*", 300, true, some 4, some 0⟩,
    ⟨2, 1, 2, 4, "+", 200, false, none, none⟩]⟩

/-- `c2_db` after the final submit: status is `completed`, the expression
`result` column was never written. -/
def c2_dbAfter : DB :=
  ⟨[⟨1, 1, "2+2*2", "completed", none, 0⟩],
   [⟨1, 1, 2, 2, "*", 300, true, some 4, some 0⟩,
    ⟨2, 1, 2, 4, "+", 200, true, some 6, none⟩]⟩

/-- A database whose only task is already completed. -/
def c4_db : DB :=
  ⟨[⟨1, 1, "3-1", "completed", none, 0⟩],
   [⟨1, 1, 3, 1, "-", 200, true, some 2, some 9⟩]⟩

/-- `c4_db` after re-submitting the completed task with value 99: the
stored result was overwritten. -/
def c4_dbAfter : DB :=
  ⟨[⟨1, 1, "3-1", "completed", none, 0⟩],
   [⟨1, 1, 3, 1, "-", 200, true, some 99, some 9⟩]⟩

/-- A database for `1/0+2`: the division task was fetched and dropped by
the worker (division by zero); the `+` task of the same expression is also
still pending. -/
def c6_db : DB :=
  ⟨[⟨1, 1, "1/0+2", "pending", none, 0⟩],
   [⟨1, 1, 1, 0, "/", 400, false, none, some 0⟩,
    ⟨2, 1, 5, 7, "+", 100, false, none, none⟩]⟩

/-- `c6_db` after a submit for task 2 only: task 1 still pending, the
expression untouched. -/
def c6_dbAfter : DB :=
  ⟨[⟨1, 1, "1/0+2", "pending", none, 0⟩],
   [⟨1, 1, 1, 0, "/", 400, false, none, some 0⟩,
    ⟨2, 1, 5, 7, "+", 100, true, some 4, none⟩]⟩

/-- The division-by-zero task as the worker receives it. -/
def c6_task : AgentTask := ⟨"1", 1, 0, "/", 400⟩

/-- An orchestrator configuration with the documented default costs. -/
def cfgDefault : Config := ⟨"8080", 100, 100, 100, 100⟩

/-- The parsed AST of `2+2*2` (per the spec grammar: `*` binds tighter). -/
def astTwoPlusTwoTimesTwo : ASTNode :=
  .node "+" (.leaf 2) (.node "*" (.leaf 2) (.leaf 2) false) false

/-- The parsed AST of `(1+2)*(3+4)`. -/
def astParenExample : ASTNode :=
  .node "*" (.node "+" (.leaf 1) (.leaf 2) false)
            (.node "+" (.leaf 3) (.leaf 4) false) false

/-! Theorems. -/

/-- Filtering commutes away a map that fixes every element the filter
keeps and never changes the filter's verdict. -/
theorem filter_map_eq_filter {α : Type} (p : α → Bool) (f : α → α)
    (h1 : ∀ x, p (f x) = p x) (h2 : ∀ x, p x = true → f x = x) :
    ∀ l : List α, (l.map f).filter p = l.filter p := by
  intro l
  induction l with
  | nil => rfl
  | cons a l ih =>
    simp only [List.map_cons, List.filter_cons, h1 a]
    cases hp : p a with
    | false => simpa [hp] using ih
    | true => simp [hp, h2 a hp, ih]

/-- A fold that at each step keeps either the accumulator or the next
element ends inside the candidate list. -/
theorem foldl_choice_mem {α : Type} (c : α → α → Bool) :
    ∀ (ys : List α) (x : α),
      ys.foldl (fun b y => if c y b then y else b) x ∈ x :: ys := by
  intro ys
  induction ys with
  | nil => intro x; simp
  | cons y ys ih =>
    intro x
    simp only [List.foldl_cons]
    by_cases hc : c y x = true
    · rw [if_pos hc]
      rcases List.mem_cons.mp (ih y) with h | h
      · simp [h]
      · simp [h]
    · rw [if_neg hc]
      rcases List.mem_cons.mp (ih x) with h | h
      · simp [h]
      · simp [h]

/-- C10: the single-expression query endpoint does not check ownership —
its response and state update are literally independent of the
authenticated user id: two users querying the same id get the same answer. -/
theorem expressionIDHandler_user_independent
    (method : String) (exprStore : List (String × ExprMem)) (id : String)
    (u1 u2 : Nat) :
    expressionIDHandler method exprStore id u1 =
      expressionIDHandler method exprStore id u2 := rfl

/-- `find?` commutes with a map that never changes the predicate's verdict. -/
theorem find?_map_of_pred {α : Type} (p : α → Bool) (f : α → α)
    (hpf : ∀ x, p (f x) = p x) :
    ∀ l : List α, (l.map f).find? p = (l.find? p).map f := by
  intro l
  induction l with
  | nil => rfl
  | cons a l ih =>
    cases hp : p a with
    | false => simp [List.find?, hpf a, hp, ih]
    | true => simp [List.find?, hpf a, hp]

/-- C2 (counterexample): submitting the final task of `2+2*2` makes
`CompleteTask` set the expression's status to `completed` while its
`result` stays unset — refuting that the result is set in the same call
and that `result` is set iff `status = completed`. -/
theorem completeTask_sets_completed_without_result :
    CompleteTask c2_db 2 6 = .ok c2_dbAfter ∧
      c2_dbAfter.expressions.map (fun e => (e.status, e.result)) =
        [("completed", (none : Option ℚ))] := by decide

/-- C2 (amended): a successful `CompleteTask` never writes an expression
result; its whole effect on the `expressions` table is either nothing or
setting one expression's status to `completed` (when its last pending task
completes, within the same call), leaving `result` unchanged. -/
theorem completeTask_never_writes_result (db : DB) (tid : Nat) (v : ℚ)
    (db' : DB) (h : CompleteTask db tid v = .ok db') :
    db'.expressions.map ExprRow.result = db.expressions.map ExprRow.result ∧
      (db'.expressions = db.expressions ∨
        ∃ eid, db'.expressions = db.expressions.map (fun e =>
          if e.id = eid then { e with status := "completed" } else e)) := by
  simp only [CompleteTask] at h
  split at h
  · exact absurd h (by simp)
  · next t hfind =>
    split at h
    · simp only [Except.ok.injEq] at h
      subst h
      constructor
      · simp only [List.map_map]
        refine List.map_congr_left (fun e _ => ?_)
        by_cases he : e.id = t.expression_id <;> simp [he]
      · exact Or.inr ⟨t.expression_id, rfl⟩
    · simp only [Except.ok.injEq] at h
      subst h
      exact ⟨rfl, Or.inl rfl⟩

/-- Witness for `completeTask_never_writes_result` at the concrete final
submit of `2+2*2`. -/
theorem completeTask_never_writes_result_witness :
    c2_dbAfter.expressions.map ExprRow.result =
        c2_db.expressions.map ExprRow.result ∧
      (c2_dbAfter.expressions = c2_db.expressions ∨
        ∃ eid, c2_dbAfter.expressions = c2_db.expressions.map (fun e =>
          if e.id = eid then { e with status := "completed" } else e)) :=
  completeTask_never_writes_result c2_db 2 6 c2_dbAfter (by decide)

/-- C4 (counterexample): re-submitting the already-completed task 1 is
accepted with a 200 acknowledgement — not rejected as NotFound — and
overwrites the task's stored result with the new value 99. -/
theorem completedTask_resubmit_accepted :
    postTaskHandler c4_db 1 99 = (200, c4_dbAfter) ∧
      c4_dbAfter.tasks.map TaskRow.result = [some 99] := by decide

/-- C4 (amended): a submit for a task id absent from the store fails (the
update scans no row) and leaves the state unchanged, surfaced as a generic
500 rather than a discrete NotFound; but a submit for an
already-completed task id is accepted with a 200 and re-mutates the task
row, overwriting its stored result. -/
theorem postTaskHandler_unknown_and_completed (db : DB) (tid : Nat) (v : ℚ) :
    ((∀ t ∈ db.tasks, t.id ≠ tid) → postTaskHandler db tid v = (500, db)) ∧
      (∀ t, db.tasks.find? (fun u => u.id == tid) = some t →
        t.completed = true →
        ∃ db', postTaskHandler db tid v = (200, db') ∧
          db'.tasks.find? (fun u => u.id == tid) =
            some { t with completed := true, result := some v }) := by
  constructor
  · intro hall
    have hnone : db.tasks.find? (fun u => u.id == tid) = none :=
      List.find?_eq_none.mpr (fun x hx => by simpa using hall x hx)
    simp [postTaskHandler, CompleteTask, hnone]
  · intro t hfind _
    have hid : t.id = tid := by simpa using List.find?_some hfind
    have hfind1 : (db.tasks.map (fun u =>
        if u.id = tid then { u with completed := true, result := some v }
        else u)).find? (fun u => u.id == tid) =
        some { t with completed := true, result := some v } := by
      rw [find?_map_of_pred _ _
        (fun x => by by_cases hx : x.id = tid <;> simp [hx]) db.tasks, hfind]
      simp [hid]
    have hct : ∃ exprs, CompleteTask db tid v =
        .ok ⟨exprs, db.tasks.map (fun u =>
          if u.id = tid then { u with completed := true, result := some v }
          else u)⟩ := by
      simp only [CompleteTask, hfind]
      split
      · exact ⟨_, rfl⟩
      · exact ⟨_, rfl⟩
    obtain ⟨exprs, hct⟩ := hct
    refine ⟨⟨exprs, db.tasks.map (fun u =>
      if u.id = tid then { u with completed := true, result := some v }
      else u)⟩, ?_, hfind1⟩
    simp [postTaskHandler, hct]

/-- Witness for `postTaskHandler_unknown_and_completed`: an unknown id (5)
yields a 500 with the database unchanged, and re-submitting the completed
task 1 of `c4_db` is accepted and overwrites its result. -/
theorem postTaskHandler_unknown_and_completed_witness :
    postTaskHandler c4_db 5 1 = (500, c4_db) ∧
      ∃ db', postTaskHandler c4_db 1 99 = (200, db') ∧
        db'.tasks.find? (fun u => u.id == 1) =
          some ⟨1, 1, 3, 1, "-", 200, true, some 99, some 9⟩ :=
  ⟨(postTaskHandler_unknown_and_completed c4_db 5 1).1 (by decide),
   (postTaskHandler_unknown_and_completed c4_db 1 99).2
     ⟨1, 1, 3, 1, "-", 200, true, some 2, some 9⟩ (by decide) rfl⟩

/-- A successful `pickMin` returns an element of its input list. -/
theorem pickMin_mem {l : List (Nat × TaskRow)} {x : Nat × TaskRow}
    (h : pickMin l = some x) : x ∈ l := by
  cases l with
  | nil => cases h
  | cons a l =>
    simp only [pickMin, Option.some.injEq] at h
    subst h
    exact foldl_choice_mem _ l a

/-- C3 (counterexample): with one stored uncompleted task, two successive
`GetPendingTask` calls both return task id 1 — a fetched task is handed out
again even though no submit for it has occurred. -/
theorem fetchTask_returns_same_task_twice :
    (GetPendingTask c3_db0 0).toOption.map (fun p => (p.1.id, p.2)) =
        some (1, c3_db1) ∧
      (GetPendingTask c3_db1 1).toOption.map (fun p => p.1.id) = some 1 := by
  decide

/-- C3 (amended): a fetch returns only a stored uncompleted task but does
not consume it: it writes only the task's `started_at` (ids, arguments,
completed flags and the expression rows are unchanged), so the same task id
can be returned by later fetches until a submit completes it. -/
theorem fetchTask_not_consuming (db : DB) (now : Nat) (t : TaskRow) (db' : DB)
    (h : GetPendingTask db now = .ok (t, db')) :
    db'.expressions = db.expressions ∧
      db'.tasks.map (fun u => (u.id, u.expression_id, u.arg1, u.arg2,
          u.operation, u.operation_time, u.completed, u.result)) =
        db.tasks.map (fun u => (u.id, u.expression_id, u.arg1, u.arg2,
          u.operation, u.operation_time, u.completed, u.result)) ∧
      ∃ u ∈ db.tasks, u.id = t.id ∧ u.completed = false := by
  simp only [GetPendingTask] at h
  split at h
  · exact absurd h (by simp)
  · next k t0 hmin =>
    simp only [Except.ok.injEq, Prod.mk.injEq] at h
    obtain ⟨rfl, rfl⟩ := h
    refine ⟨rfl, ?_, ?_⟩
    · simp only [List.map_map]
      refine List.map_congr_left (fun u _ => ?_)
      by_cases hu : u.id = t0.id <;> simp [hu]
    · have hmem : (k, t0) ∈ pendingCandidates db := pickMin_mem hmin
      simp only [pendingCandidates, List.mem_filterMap, List.mem_filter,
        Option.map_eq_some'] at hmem
      obtain ⟨u, ⟨humem, hunc⟩, e, -, heq⟩ := hmem
      have hu : u = t0 := congrArg Prod.snd heq
      subst hu
      exact ⟨u, humem, rfl, by simpa using hunc⟩

/-- Witness for `fetchTask_not_consuming` on the concrete `c3_db0`. -/
theorem fetchTask_not_consuming_witness :
    c3_db1.expressions = c3_db0.expressions ∧
      c3_db1.tasks.map (fun u => (u.id, u.expression_id, u.arg1, u.arg2,
          u.operation, u.operation_time, u.completed, u.result)) =
        c3_db0.tasks.map (fun u => (u.id, u.expression_id, u.arg1, u.arg2,
          u.operation, u.operation_time, u.completed, u.result)) ∧
      ∃ u ∈ c3_db0.tasks,
        u.id = (⟨1, 1, 2, 2, "+", 100, false, none, none⟩ : TaskRow).id ∧
          u.completed = false :=
  fetchTask_not_consuming c3_db0 0
    ⟨1, 1, 2, 2, "+", 100, false, none, none⟩ c3_db1 (by decide)

/-- An initial accumulator is below the running maximum of expression ids. -/
theorem foldl_max_le_init (l : List ExprRow) :
    ∀ init : Nat, init ≤ l.foldl (fun m x => max m x.id) init := by
  induction l with
  | nil => intro init; simp
  | cons a l ih =>
    intro init
    exact le_trans (le_max_left init a.id) (ih (max init a.id))

/-- Every stored expression id is bounded by the folded maximum. -/
theorem mem_le_foldl_max (l : List ExprRow) :
    ∀ init, ∀ e ∈ l, e.id ≤ l.foldl (fun m x => max m x.id) init := by
  induction l with
  | nil => simp
  | cons a l ih =>
    intro init e he
    rcases List.mem_cons.mp he with rfl | he
    · exact le_trans (le_max_right init e.id) (foldl_max_le_init l _)
    · exact ih _ e he

/-- C5 (counterexample): for user 1, an expression whose parse fails is
persisted, the error update matches no row (it filters on the zero-valued
user id of the update record), and the stored status remains `pending` —
not `error`.  No task is generated. -/
theorem parseFailure_leaves_status_pending :
    (calculateHandlerParseFail ⟨[], []⟩ 1 "2+a" 0).1.expressions.map
        (fun e => (e.status, e.user_id)) = [("pending", 1)] ∧
      (calculateHandlerParseFail ⟨[], []⟩ 1 "2+a" 0).1.tasks = [] := by decide

/-- C5 (amended): on parse failure the handler creates the expression and
returns without ever generating a task, and it attempts to persist
`status = error`; but `UpdateExpression` filters on the update record's
`user_id`, which is the Go zero value 0, so for any real (nonzero) user the
update matches no row and the net persisted effect is exactly one new
`pending` row. -/
theorem calculateHandler_parseFailure (db : DB) (uid : Nat) (text : String)
    (now : Nat) (huid : uid ≠ 0) :
    (calculateHandlerParseFail db uid text now).1.tasks = db.tasks ∧
      (calculateHandlerParseFail db uid text now).1.expressions =
        db.expressions ++
          [⟨(calculateHandlerParseFail db uid text now).2, uid, text,
            "pending", none, now⟩] := by
  refine ⟨rfl, ?_⟩
  simp only [calculateHandlerParseFail, CreateExpression, UpdateExpression,
    List.map_append]
  have h1 : db.expressions.map (fun row =>
      if row.id = nextExprId db ∧ row.user_id = 0 then
        { row with status := "error", result := none } else row) =
      db.expressions := by
    refine (List.map_congr_left (fun e he => ?_)).trans (List.map_id _)
    have : e.id < nextExprId db :=
      Nat.lt_succ_of_le (mem_le_foldl_max db.expressions 0 e he)
    simp [Nat.ne_of_lt this]
  have h2 : ([(⟨nextExprId db, uid, text, "pending", none, now⟩ : ExprRow)]).map
      (fun row => if row.id = nextExprId db ∧ row.user_id = 0 then
        { row with status := "error", result := none } else row) =
      [⟨nextExprId db, uid, text, "pending", none, now⟩] := by
    simp [huid]
  rw [h1, h2]

/-- Witness for `calculateHandler_parseFailure` on an empty database and
user 1. -/
theorem calculateHandler_parseFailure_witness :
    (calculateHandlerParseFail ⟨[], []⟩ 1 "2+a" 0).1.tasks =
        (⟨[], []⟩ : DB).tasks ∧
      (calculateHandlerParseFail ⟨[], []⟩ 1 "2+a" 0).1.expressions =
        (⟨[], []⟩ : DB).expressions ++
          [⟨(calculateHandlerParseFail ⟨[], []⟩ 1 "2+a" 0).2, 1, "2+a",
            "pending", none, 0⟩] :=
  calculateHandler_parseFailure ⟨[], []⟩ 1 "2+a" 0 (by decide)

/-- C6: a worker whose computation fails (division by zero, or an operator
`Calculations` rejects) makes no `SubmitResult` call for that task and does
not resubmit it; and as long as some task of an expression stays
uncompleted, no submit of a different task id ever changes that
expression's stored rows — so the expression stays `pending` and never
becomes `error`. -/
theorem worker_error_no_submit_expression_stays_pending :
    (∀ (t : AgentTask) (e : CalcError),
        Calculations t.operation t.arg1 t.arg2 = .error e →
          workerIteration t = none) ∧
      (∀ a : ℚ, Calculations "/" a 0 = .error .divisionByZero) ∧
      (∀ (db : DB) (tid : Nat) (v : ℚ) (db' : DB) (t0 : TaskRow),
        t0 ∈ db.tasks → t0.completed = false → tid ≠ t0.id →
        CompleteTask db tid v = .ok db' →
        db'.expressions.filter (fun e => e.id == t0.expression_id) =
          db.expressions.filter (fun e => e.id == t0.expression_id)) := by
  refine ⟨?_, ?_, ?_⟩
  · intro t e h
    simp only [workerIteration]
    split
    · rfl
    · rw [h]
  · intro a
    simp [Calculations]
  · intro db tid v db' t0 hmem hunc hne h
    simp only [CompleteTask] at h
    split at h
    · exact absurd h (by simp)
    · next t hfind =>
      split at h
      · next hp =>
        by_cases heq : t.expression_id = t0.expression_id
        · exfalso
          have ht0 : t0 ∈ db.tasks.map (fun u =>
              if u.id = tid then
                { u with completed := true, result := some v } else u) := by
            have := List.mem_map_of_mem (f := fun u =>
              if u.id = tid then
                { u with completed := true, result := some v } else u) hmem
            simpa [Ne.symm hne] using this
          have hfil : t0 ∈ (db.tasks.map (fun u =>
              if u.id = tid then
                { u with completed := true, result := some v } else u)).filter
              (fun u => u.expression_id == t.expression_id && !u.completed) :=
            List.mem_filter.mpr ⟨ht0, by simp [heq, hunc]⟩
          rw [List.length_eq_zero] at hp
          simp [hp] at hfil
        · simp only [Except.ok.injEq] at h
          subst h
          exact filter_map_eq_filter _ _
            (fun e => by by_cases hx : e.id = t.expression_id <;> simp [hx])
            (fun e hb => by
              have hid : e.id = t0.expression_id := by simpa using hb
              have hne2 : e.id ≠ t.expression_id := by
                rw [hid]; exact fun hc => heq hc.symm
              simp [hne2]) _
      · simp only [Except.ok.injEq] at h
        subst h
        rfl

/-- Witness for `worker_error_no_submit_expression_stays_pending`: the
`1/0` task yields no submit, and completing the other task of the same
expression leaves the expression rows untouched. -/
theorem worker_error_no_submit_witness :
    workerIteration c6_task = none ∧
      c6_dbAfter.expressions.filter (fun e => e.id == 1) =
        c6_db.expressions.filter (fun e => e.id == 1) :=
  ⟨worker_error_no_submit_expression_stays_pending.1 c6_task
      .divisionByZero (by decide),
   worker_error_no_submit_expression_stays_pending.2.2 c6_db 2 4 c6_dbAfter
      ⟨1, 1, 1, 0, "/", 400, false, none, some 0⟩
      (by decide) rfl (by decide) (by decide)⟩

/-- `markReady` preserves leaf-ness. -/
theorem markReady_isLeaf (a : ASTNode) : (markReady a).isLeaf = a.isLeaf := by
  cases a <;> rfl

/-- `markReady` preserves node values. -/
theorem markReady_value (a : ASTNode) : (markReady a).value = a.value := by
  cases a <;> rfl

/-- Master equation for the decomposer: one `Tasks` pass advances the
counter by the number of ready-and-unscheduled nodes, appends their tasks
(in post-order, with consecutive ids) to the queue, prepends them to the
store, and marks exactly the ready nodes as scheduled. -/
theorem tasksTraverse_eq (cfg : Config) (exprID : String) :
    ∀ (a : ASTNode) (st : OrchState) (pre : List Bool),
      tasksTraverse cfg exprID st pre a =
        (⟨st.taskCounter + newlyCount a,
          (emittedList cfg exprID st.taskCounter pre a).reverse.map
            (fun t => (t.id, t)) ++ st.taskStore,
          st.taskQueue ++ emittedList cfg exprID st.taskCounter pre a⟩,
         markReady a) := by
  intro a
  induction a with
  | leaf v =>
    intro st pre
    simp [tasksTraverse, newlyCount, emittedList, markReady]
  | node op l r s ihl ihr =>
    intro st pre
    simp only [tasksTraverse, ihl st (pre ++ [false]), ihr _ (pre ++ [true]),
      markReady_isLeaf, markReady_value, markReady, newlyCount, emittedList]
    by_cases hc : (l.isLeaf && r.isLeaf && !s) = true
    · have hs : s = false := by
        rcases Bool.and_eq_true .. |>.mp hc with ⟨-, hns⟩
        simpa using hns
      rcases Bool.and_eq_true .. |>.mp hc with ⟨hlr, -⟩
      rcases Bool.and_eq_true .. |>.mp hlr with ⟨hl, hr⟩
      simp [hl, hr, hs, List.reverse_append, List.map_append, Nat.add_assoc,
        Prod.ext_iff]
    · have hflag : (s || (l.isLeaf && r.isLeaf)) = s := by
        cases s with
        | true => simp
        | false => simpa using hc
      simp [hc, hflag, List.reverse_append, List.map_append, Nat.add_assoc,
        Prod.ext_iff]

/-- One pass emits exactly one task per ready-and-unscheduled node. -/
theorem length_emittedList (cfg : Config) (exprID : String) :
    ∀ (a : ASTNode) (cnt : Nat) (pre : List Bool),
      (emittedList cfg exprID cnt pre a).length = newlyCount a := by
  intro a
  induction a with
  | leaf v => intro cnt pre; rfl
  | node op l r s ihl ihr =>
    intro cnt pre
    by_cases hc : (l.isLeaf && r.isLeaf && !s) = true <;>
      simp [emittedList, newlyCount, hc, ihl, ihr] <;> omega

/-- The emitted tasks point at exactly the ready-and-unscheduled nodes, in
post-order depth-first left-to-right order. -/
theorem emittedList_map_node (cfg : Config) (exprID : String) :
    ∀ (a : ASTNode) (cnt : Nat) (pre : List Bool),
      (emittedList cfg exprID cnt pre a).map Task.node = newlyPaths pre a := by
  intro a
  induction a with
  | leaf v => intro cnt pre; rfl
  | node op l r s ihl ihr =>
    intro cnt pre
    by_cases hc : (l.isLeaf && r.isLeaf && !s) = true <;>
      simp [emittedList, newlyPaths, hc, ihl, ihr]

/-- `List.range'` splits at any point. -/
theorem range1_split :
    ∀ (m s n : Nat),
      List.range' s (m + n) = List.range' s m ++ List.range' (s + m) n := by
  intro m
  induction m with
  | zero => intro s n; simp
  | succ m ih =>
    intro s n
    rw [Nat.succ_add, List.range'_succ, List.range'_succ, ih (s + 1) n]
    simp [List.cons_append, Nat.add_assoc, Nat.add_comm 1 m]

/-- The ids of the tasks emitted by one pass are the decimal strings of the
consecutive counter values following the starting counter. -/
theorem emittedList_map_id (cfg : Config) (exprID : String) :
    ∀ (a : ASTNode) (cnt : Nat) (pre : List Bool),
      (emittedList cfg exprID cnt pre a).map Task.id =
        (List.range' (cnt + 1) (newlyCount a)).map toString := by
  intro a
  induction a with
  | leaf v => intro cnt pre; rfl
  | node op l r s ihl ihr =>
    intro cnt pre
    by_cases hc : (l.isLeaf && r.isLeaf && !s) = true
    · simp only [emittedList, newlyCount, hc, if_true, List.map_append,
        ihl, ihr]
      have h1 : newlyCount l + newlyCount r + 1 =
          newlyCount l + (newlyCount r + 1) := by omega
      rw [h1, range1_split (newlyCount l) (cnt + 1) (newlyCount r + 1),
        range1_split (newlyCount r) (cnt + 1 + newlyCount l) 1]
      simp [List.range'_succ, Nat.add_assoc, Nat.add_comm, Nat.add_left_comm]
    · simp only [emittedList, newlyCount, hc, if_false, List.map_append,
        ihl, ihr, Bool.false_eq_true]
      rw [show newlyCount l + newlyCount r + 0 = newlyCount l + newlyCount r
        by omega, range1_split (newlyCount l) (cnt + 1) (newlyCount r)]
      simp [Nat.add_assoc, Nat.add_comm, Nat.add_left_comm]

/-- C8: the decomposer appends tasks to the queue in post-order depth-first
left-to-right order over the ready nodes, with consecutive (hence strictly
increasing) counter-derived ids; concretely, for `(1+2)*(3+4)` the left
addition gets id "1" and enters the queue before the right addition
(id "2"). -/
theorem decomposer_postorder_monotone_ids :
    (∀ (cfg : Config) (exprID : String) (st : OrchState) (pre : List Bool)
        (a : ASTNode),
      (tasksTraverse cfg exprID st pre a).1.taskQueue.map Task.node =
          st.taskQueue.map Task.node ++ newlyPaths pre a ∧
        (tasksTraverse cfg exprID st pre a).1.taskQueue.map Task.id =
          st.taskQueue.map Task.id ++
            (List.range' (st.taskCounter + 1) (newlyCount a)).map toString) ∧
      (tasksTraverse cfgDefault "1" ⟨0, [], []⟩ [] astParenExample).1.taskQueue.map
          (fun t => (t.id, t.node, t.arg1, t.arg2, t.operation)) =
        [("1", [false], 1, 2, "+"), ("2", [true], 3, 4, "+")] := by
  constructor
  · intro cfg exprID st pre a
    rw [tasksTraverse_eq]
    simp [List.map_append, emittedList_map_node, emittedList_map_id]
  · decide

/-- With every ready node already scheduled, a `Tasks` pass is a no-op. -/
theorem tasksTraverse_id_of_allReadyScheduled (cfg : Config) (exprID : String) :
    ∀ (a : ASTNode) (st : OrchState) (pre : List Bool),
      allReadyScheduled a = true →
      tasksTraverse cfg exprID st pre a = (st, a) := by
  intro a
  induction a with
  | leaf v => intro st pre _; rfl
  | node op l r s ihl ihr =>
    intro st pre h
    simp only [allReadyScheduled, Bool.and_eq_true] at h
    obtain ⟨⟨hl, hr⟩, hcond⟩ := h
    simp only [tasksTraverse, ihl st (pre ++ [false]) hl,
      ihr st (pre ++ [true]) hr]
    have hfalse : (l.isLeaf && r.isLeaf && !s) = false := by
      cases hs : s with
      | true => simp [hs]
      | false =>
        rw [hs] at hcond
        simp at hcond
        rcases hcond with h2 | h2 <;> simp [h2]
    simp [hfalse]

/-- After a `Tasks` pass every ready node is scheduled. -/
theorem allReadyScheduled_markReady :
    ∀ a : ASTNode, allReadyScheduled (markReady a) = true := by
  intro a
  induction a with
  | leaf v => rfl
  | node op l r s ihl ihr =>
    simp only [markReady, allReadyScheduled, ihl, ihr, markReady_isLeaf,
      Bool.true_and]
    cases hlr : (l.isLeaf && r.isLeaf) <;> simp

/-- C9: the decomposer is idempotent — running `Tasks` a second time on the
output of a first run leaves the counter, the task store, the queue and the
AST (its `scheduled` flags included) exactly as after the first run, so no
node ever receives a second task. -/
theorem decomposer_idempotent (cfg : Config) (exprID : String)
    (st : OrchState) (pre : List Bool) (a : ASTNode) :
    tasksTraverse cfg exprID (tasksTraverse cfg exprID st pre a).1 pre
        (tasksTraverse cfg exprID st pre a).2 =
      tasksTraverse cfg exprID st pre a := by
  rw [tasksTraverse_eq cfg exprID a st pre]
  exact tasksTraverse_id_of_allReadyScheduled cfg exprID (markReady a) _ pre
    (allReadyScheduled_markReady a)

/-- Marking flags does not change the number of internal nodes. -/
theorem internalCount_markReady :
    ∀ a : ASTNode, internalCount (markReady a) = internalCount a := by
  intro a
  induction a with
  | leaf v => rfl
  | node op l r s ihl ihr => simp [markReady, internalCount, ihl, ihr]

/-- A `Tasks` pass only schedules ready nodes, so `allScheduledReady` is
preserved. -/
theorem allScheduledReady_markReady :
    ∀ a : ASTNode, allScheduledReady a = true →
      allScheduledReady (markReady a) = true := by
  intro a
  induction a with
  | leaf v => intro _; rfl
  | node op l r s ihl ihr =>
    intro h
    simp only [allScheduledReady, Bool.and_eq_true] at h
    obtain ⟨⟨hl, hr⟩, hcond⟩ := h
    simp only [markReady, allScheduledReady, ihl hl, ihr hr, markReady_isLeaf,
      Bool.true_and]
    cases hs : s with
    | true =>
      rw [hs] at hcond
      simpa using hcond
    | false => cases hlr : (l.isLeaf && r.isLeaf) <;> simp

/-- On a flag-free tree there are no scheduled paths. -/
theorem scheduledPaths_of_unscheduled :
    ∀ (a : ASTNode) (pre : List Bool), unscheduled a = true →
      scheduledPaths pre a = [] := by
  intro a
  induction a with
  | leaf v => intro pre _; rfl
  | node op l r s ihl ihr =>
    intro pre h
    simp only [unscheduled, Bool.and_eq_true] at h
    obtain ⟨⟨hs, hl⟩, hr⟩ := h
    simp [scheduledPaths, ihl _ hl, ihr _ hr, show s = false by simpa using hs]

/-- A flag-free tree vacuously has every scheduled node ready. -/
theorem allScheduledReady_of_unscheduled :
    ∀ a : ASTNode, unscheduled a = true → allScheduledReady a = true := by
  intro a
  induction a with
  | leaf v => intro _; rfl
  | node op l r s ihl ihr =>
    intro h
    simp only [unscheduled, Bool.and_eq_true] at h
    obtain ⟨⟨hs, hl⟩, hr⟩ := h
    simp [allScheduledReady, ihl hl, ihr hr, show s = false by simpa using hs]

/-- Scheduled paths after one pass are, up to permutation, the previously
scheduled paths together with the newly scheduled (ready) ones. -/
theorem scheduledPaths_markReady :
    ∀ (a : ASTNode) (pre : List Bool),
      (scheduledPaths pre (markReady a)).Perm
        (scheduledPaths pre a ++ newlyPaths pre a) := by
  intro a
  induction a with
  | leaf v => intro pre; rfl
  | node op l r s ihl ihr =>
    intro pre
    rw [List.perm_iff_count]
    intro x
    have cl := (ihl (pre ++ [false])).count_eq
    have cr := (ihr (pre ++ [true])).count_eq
    simp only [markReady, scheduledPaths, newlyPaths, List.count_append,
      cl, cr]
    cases hs : s <;> cases hlr : (l.isLeaf && r.isLeaf) <;> simp <;> omega

/-- Every scheduled path extends the prefix and points at a scheduled node. -/
theorem mem_scheduledPaths {p : List Bool} :
    ∀ (a : ASTNode) (pre : List Bool), p ∈ scheduledPaths pre a →
      ∃ q, p = pre ++ q ∧
        ∃ op l r, nodeAt a q = some (.node op l r true) := by
  intro a
  induction a with
  | leaf v => intro pre h; simp [scheduledPaths] at h
  | node op l r s ihl ihr =>
    intro pre h
    simp only [scheduledPaths, List.mem_append] at h
    rcases h with (h | h) | h
    · obtain ⟨q, hq, op1, l1, r1, hn⟩ := ihl (pre ++ [false]) h
      exact ⟨false :: q, by simpa [List.append_assoc] using hq,
        op1, l1, r1, by simpa [nodeAt] using hn⟩
    · obtain ⟨q, hq, op1, l1, r1, hn⟩ := ihr (pre ++ [true]) h
      exact ⟨true :: q, by simpa [List.append_assoc] using hq,
        op1, l1, r1, by simpa [nodeAt] using hn⟩
    · by_cases hs : s = true
      · rw [hs] at h
        simp only [if_true, List.mem_singleton] at h
        subst h
        exact ⟨[], by simp, op, l, r, by simp [nodeAt, hs]⟩
      · simp [hs] at h

/-- Conversely, every path to a scheduled node occurs among the scheduled
paths. -/
theorem nodeAt_mem_scheduledPaths :
    ∀ (a : ASTNode) (q pre : List Bool) (op : String) (l r : ASTNode),
      nodeAt a q = some (.node op l r true) →
      pre ++ q ∈ scheduledPaths pre a := by
  intro a
  induction a with
  | leaf v => intro q pre op l r hn; cases q <;> simp [nodeAt] at hn
  | node op0 l0 r0 s0 ihl ihr =>
    intro q pre op l r hn
    cases q with
    | nil =>
      simp only [nodeAt, Option.some.injEq] at hn
      cases hn
      simp [scheduledPaths]
    | cons d q =>
      simp only [nodeAt] at hn
      cases d with
      | false =>
        have := ihl q (pre ++ [false]) op l r (by simpa using hn)
        simp only [scheduledPaths, List.mem_append]
        exact Or.inl (Or.inl (by simpa [List.append_assoc] using this))
      | true =>
        have := ihr q (pre ++ [true]) op l r (by simpa using hn)
        simp only [scheduledPaths, List.mem_append]
        exact Or.inl (Or.inr (by simpa [List.append_assoc] using this))

/-- Under `allScheduledReady`, a scheduled node's children are leaves. -/
theorem nodeAt_scheduled_ready :
    ∀ (a : ASTNode) (q : List Bool) (op : String) (l r : ASTNode),
      allScheduledReady a = true → nodeAt a q = some (.node op l r true) →
      l.isLeaf = true ∧ r.isLeaf = true := by
  intro a
  induction a with
  | leaf v => intro q op l r _ hn; cases q <;> simp [nodeAt] at hn
  | node op0 l0 r0 s0 ihl ihr =>
    intro q op l r h hn
    simp only [allScheduledReady, Bool.and_eq_true] at h
    obtain ⟨⟨hl0, hr0⟩, hc⟩ := h
    cases q with
    | nil =>
      simp only [nodeAt, Option.some.injEq] at hn
      cases hn
      simpa using hc
    | cons d q =>
      simp only [nodeAt] at hn
      cases d with
      | false => exact ihl q op l r hl0 (by simpa using hn)
      | true => exact ihr q op l r hr0 (by simpa using hn)

/-- Replacing a subtree by a leaf keeps leaves leaves. -/
theorem setLeafAt_isLeaf {a : ASTNode} (h : a.isLeaf = true) :
    ∀ (q : List Bool) (v : ℚ), (setLeafAt a q v).isLeaf = true := by
  cases a with
  | leaf w => intro q v; cases q <;> rfl
  | node op l r s => intro q v; cases h

/-- Integrating a result removes exactly one internal node. -/
theorem internalCount_setLeafAt :
    ∀ (a : ASTNode) (q : List Bool) (op : String) (x y v : ℚ) (s : Bool),
      nodeAt a q = some (.node op (.leaf x) (.leaf y) s) →
      internalCount (setLeafAt a q v) + 1 = internalCount a := by
  intro a
  induction a with
  | leaf w => intro q op x y v s hn; cases q <;> simp [nodeAt] at hn
  | node op0 l r s0 ihl ihr =>
    intro q op x y v s hn
    cases q with
    | nil =>
      simp only [nodeAt, Option.some.injEq] at hn
      cases hn
      simp [setLeafAt, internalCount]
    | cons d q =>
      simp only [nodeAt] at hn
      cases d with
      | false =>
        simp only [setLeafAt, if_false, internalCount, Bool.false_eq_true]
        have := ihl q op x y v s (by simpa using hn)
        omega
      | true =>
        simp only [setLeafAt, if_true, internalCount]
        have := ihr q op x y v s (by simpa using hn)
        omega

/-- Integrating at a scheduled ready node erases exactly its path from the
scheduled paths. -/
theorem scheduledPaths_setLeafAt :
    ∀ (a : ASTNode) (q : List Bool) (op : String) (x y v : ℚ)
      (pre : List Bool),
      nodeAt a q = some (.node op (.leaf x) (.leaf y) true) →
      scheduledPaths pre (setLeafAt a q v) =
        (scheduledPaths pre a).erase (pre ++ q) := by
  intro a
  induction a with
  | leaf w => intro q op x y v pre hn; cases q <;> simp [nodeAt] at hn
  | node op0 l r s0 ihl ihr =>
    intro q op x y v pre hn
    cases q with
    | nil =>
      simp only [nodeAt, Option.some.injEq] at hn
      cases hn
      simp [setLeafAt, scheduledPaths, List.erase_cons_head]
    | cons d q =>
      simp only [nodeAt] at hn
      cases d with
      | false =>
        have hn' : nodeAt l q = some (.node op (.leaf x) (.leaf y) true) := by
          simpa using hn
        have hmem : (pre ++ [false]) ++ q ∈ scheduledPaths (pre ++ [false]) l :=
          nodeAt_mem_scheduledPaths l q (pre ++ [false]) op _ _ hn'
        simp only [setLeafAt, if_false, scheduledPaths, Bool.false_eq_true,
          ihl q op x y v (pre ++ [false]) hn']
        simp only [List.append_assoc, List.singleton_append] at hmem ⊢
        rw [List.erase_append_left _ hmem]
      | true =>
        have hn' : nodeAt r q = some (.node op (.leaf x) (.leaf y) true) := by
          simpa using hn
        have hmem : (pre ++ [true]) ++ q ∈ scheduledPaths (pre ++ [true]) r :=
          nodeAt_mem_scheduledPaths r q (pre ++ [true]) op _ _ hn'
        have hnotmem : (pre ++ [true]) ++ q ∉ scheduledPaths (pre ++ [false]) l := by
          intro hin
          obtain ⟨z, hz, -⟩ := mem_scheduledPaths l (pre ++ [false]) hin
          rw [List.append_assoc, List.append_assoc] at hz
          have := List.append_cancel_left hz
          simp at this
        simp only [setLeafAt, if_true, scheduledPaths,
          ihr q op x y v (pre ++ [true]) hn']
        simp only [List.append_assoc, List.singleton_append] at hmem hnotmem ⊢
        rw [List.erase_append_right _ hnotmem, List.erase_append_left _ hmem]

/-- Integrating a result anywhere preserves `allScheduledReady`. -/
theorem allScheduledReady_setLeafAt :
    ∀ (a : ASTNode) (q : List Bool) (v : ℚ),
      allScheduledReady a = true →
      allScheduledReady (setLeafAt a q v) = true := by
  intro a
  induction a with
  | leaf w => intro q v _; cases q <;> rfl
  | node op l r s ihl ihr =>
    intro q v h
    simp only [allScheduledReady, Bool.and_eq_true] at h
    obtain ⟨⟨hl, hr⟩, hc⟩ := h
    cases q with
    | nil => rfl
    | cons d q =>
      cases d with
      | false =>
        simp only [setLeafAt, if_false, allScheduledReady, ihl q v hl, hr,
          Bool.true_and, Bool.false_eq_true]
        cases hs : s with
        | false => simp
        | true =>
          rw [hs] at hc
          simp only [Bool.not_true, Bool.false_or, Bool.and_eq_true] at hc
          simp [setLeafAt_isLeaf hc.1, hc.2]
      | true =>
        simp only [setLeafAt, if_true, allScheduledReady, ihr q v hr, hl,
          Bool.true_and]
        cases hs : s with
        | false => simp
        | true =>
          rw [hs] at hc
          simp only [Bool.not_true, Bool.false_or, Bool.and_eq_true] at hc
          simp [setLeafAt_isLeaf hc.2, hc.1]

/-- A non-leaf tree in which every ready node is scheduled has a scheduled
path; contrapositively, no scheduled paths means the tree is a leaf. -/
theorem isLeaf_of_no_scheduledPaths :
    ∀ (a : ASTNode) (pre : List Bool), allReadyScheduled a = true →
      scheduledPaths pre a = [] → a.isLeaf = true := by
  intro a
  induction a with
  | leaf v => intro pre _ _; rfl
  | node op l r s ihl ihr =>
    intro pre h hsp
    simp only [allReadyScheduled, Bool.and_eq_true] at h
    obtain ⟨⟨hl, hr⟩, hc⟩ := h
    obtain ⟨hab, hspt⟩ := List.append_eq_nil.mp hsp
    obtain ⟨hspl, hspr⟩ := List.append_eq_nil.mp hab
    have hlleaf := ihl (pre ++ [false]) hl hspl
    have hrleaf := ihr (pre ++ [true]) hr hspr
    rw [hlleaf, hrleaf] at hc
    simp only [Bool.and_self, Bool.not_true, Bool.false_or] at hc
    rw [hc] at hspt
    simp at hspt

/-- A leaf has no internal nodes. -/
theorem internalCount_eq_zero_of_isLeaf {a : ASTNode} (h : a.isLeaf = true) :
    internalCount a = 0 := by
  cases a with
  | leaf v => rfl
  | node op l r s => cases h

/-- The two `BEq`-instance flavours of `erase` on path lists agree. -/
theorem erase_instance_eq (l : List (List Bool)) (a : List Bool) :
    @List.erase _ instBEqOfDecidableEq l a = l.erase a := by
  induction l with
  | nil => rfl
  | cons b l ih => by_cases hb : b = a <;> simp [List.erase_cons, hb, ih]

/-- Main invariant induction for the expression lifetime: with the counter
balance, the queue mirroring the scheduled paths, every ready node
scheduled and every scheduled node ready, running the integration loop with
enough fuel drives the counter to the target total. -/
theorem runLifetime_counter (cfg : Config) (exprID : String) :
    ∀ (fuel : Nat) (st : OrchState) (ast : ASTNode) (total : Nat),
      st.taskCounter + internalCount ast = total + st.taskQueue.length →
      (st.taskQueue.map Task.node).Perm (scheduledPaths [] ast) →
      allReadyScheduled ast = true →
      allScheduledReady ast = true →
      internalCount ast ≤ fuel →
      (runLifetime cfg exprID fuel (st, ast)).1.taskCounter = total := by
  intro fuel
  induction fuel with
  | zero =>
    intro st ast total h1 h2 _ _ h5
    have hN : internalCount ast = 0 := Nat.le_zero.mp h5
    have hsp : scheduledPaths [] ast = [] := by
      cases ast with
      | leaf v => rfl
      | node op l r s => simp [internalCount] at hN
    have hq : st.taskQueue.length = 0 := by
      have := h2.length_eq
      rw [hsp] at this
      simpa using this
    simp only [runLifetime]
    omega
  | succ fuel ih =>
    intro st ast total h1 h2 h3 h4 h5
    cases hq : st.taskQueue with
    | nil =>
      have hsp : scheduledPaths [] ast = [] := by
        rw [hq] at h2
        simpa using (List.Perm.symm (by simpa using h2)).eq_nil
      have hleaf := isLeaf_of_no_scheduledPaths ast [] h3 hsp
      have hN := internalCount_eq_zero_of_isLeaf hleaf
      simp only [runLifetime, hq]
      rw [hq] at h1
      simp at h1
      omega
    | cons t rest =>
      have hmem : t.node ∈ scheduledPaths [] ast := by
        refine h2.mem_iff.mp ?_
        rw [hq]
        exact List.mem_map_of_mem _ (List.mem_cons_self t rest)
      obtain ⟨q, hqe, op, ll, rr, hnode⟩ := mem_scheduledPaths ast [] hmem
      have hqe2 : q = t.node := by simpa using hqe.symm
      subst hqe2
      obtain ⟨hlleaf, hrleaf⟩ :=
        nodeAt_scheduled_ready ast t.node op ll rr h4 hnode
      cases ll with
      | node o2 a2 b2 s2 => cases hlleaf
      | leaf x =>
        cases rr with
        | node o3 a3 b3 s3 => cases hrleaf
        | leaf y =>
          have hN1 := internalCount_setLeafAt ast t.node op x y
            (applyOpTotal t.operation t.arg1 t.arg2) true hnode
          have hsp1 := scheduledPaths_setLeafAt ast t.node op x y
            (applyOpTotal t.operation t.arg1 t.arg2) [] hnode
          simp only [List.nil_append] at hsp1
          have hasr1 := allScheduledReady_setLeafAt ast t.node
            (applyOpTotal t.operation t.arg1 t.arg2) h4
          have hrest : (rest.map Task.node).Perm (scheduledPaths []
              (setLeafAt ast t.node (applyOpTotal t.operation t.arg1 t.arg2))) := by
            rw [hsp1]
            have h2c : ((t :: rest).map Task.node).Perm
                (scheduledPaths [] ast) := by
              rw [hq] at h2
              exact h2
            have h3c := h2c.erase t.node
            simpa [erase_instance_eq] using h3c
          simp only [runLifetime, hq]
          rw [tasksTraverse_eq]
          apply ih
          · simp only [internalCount_markReady, List.length_append,
              length_emittedList]
            rw [hq] at h1
            simp only [List.length_cons] at h1
            omega
          · rw [List.map_append, emittedList_map_node]
            exact ((hrest.append_right _).trans
              (scheduledPaths_markReady _ []).symm)
          · exact allReadyScheduled_markReady _
          · exact allScheduledReady_markReady _ hasr1
          · simp only [internalCount_markReady]
            omega

/-- C1: starting from a freshly parsed AST (all `scheduled` flags false),
the initial decomposition followed by the integrate-and-redecompose
lifetime generates in total exactly one task per internal operator node:
the final task counter equals the internal node count. -/
theorem total_tasks_eq_internal_nodes (cfg : Config) (exprID : String)
    (ast : ASTNode) (h : unscheduled ast = true) (fuel : Nat)
    (hf : internalCount ast ≤ fuel) :
    (runLifetime cfg exprID fuel
        (tasksTraverse cfg exprID ⟨0, [], []⟩ [] ast)).1.taskCounter =
      internalCount ast := by
  rw [tasksTraverse_eq]
  apply runLifetime_counter cfg exprID fuel _ _ (internalCount ast)
  · simp only [internalCount_markReady, List.nil_append, length_emittedList]
    omega
  · simp only [List.nil_append, emittedList_map_node]
    have hp := scheduledPaths_markReady ast []
    rw [scheduledPaths_of_unscheduled ast [] h] at hp
    simpa using hp.symm
  · exact allReadyScheduled_markReady ast
  · exact allScheduledReady_markReady ast (allScheduledReady_of_unscheduled ast h)
  · simpa [internalCount_markReady] using hf

/-- Witness for `total_tasks_eq_internal_nodes` on the parsed AST of
`2+2*2`, which has two internal nodes. -/
theorem total_tasks_eq_internal_nodes_witness :
    unscheduled astTwoPlusTwoTimesTwo = true ∧
      internalCount astTwoPlusTwoTimesTwo ≤ 2 ∧
      (runLifetime cfgDefault "1" 2
          (tasksTraverse cfgDefault "1" ⟨0, [], []⟩ []
            astTwoPlusTwoTimesTwo)).1.taskCounter =
        internalCount astTwoPlusTwoTimesTwo :=
  ⟨by decide, by decide,
   total_tasks_eq_internal_nodes cfgDefault "1" astTwoPlusTwoTimesTwo
     (by decide) 2 (by decide)⟩

end CalcService
